import Mathlib

/-!
Verification of the finite-field arithmetic of
`src/chapter_1_finite_field.rs` (`FieldElement` over `U256`).

Modelling notes.

* `U256` values are modelled as `Nat`.  The spec (section 1, OUT OF SCOPE)
  declares big-integer storage and overflow-free addition, subtraction,
  multiplication and mod to be an external, assumed-correct primitive on
  "arbitrary-width unsigned integers", so additions, multiplications and
  `%` are modelled overflow-free.  A `U256` subtraction whose result would
  be negative, however, is a library panic in the source (the `uint` crate
  panics on arithmetic overflow) and is unrepresentable in any unsigned
  width; every subtraction site whose operands are not forced into order by
  a guard is therefore modelled as an explicit `u256Underflow` error.
* Rust panics are modelled as `Except.error` values.  The error
  constructors follow the spec's taxonomy (section 7) and each one is tied
  to the panic site it models.
* The two structurally identical chunked accumulation loops of `mul`
  (repeated addition) and `pow` (repeated multiplication) are modelled by
  one combinator, `chunkLoop`, instantiated with the loop body of each.
-/

/-- Panic outcomes of the source, one constructor per panic site kind:
`rangeViolation` is the `FieldElement::new` panic (`Num .. not in field
range`), `primeMismatch` is the panic of `add`/`sub`/`mul` on operands with
different primes, `divByZero` models a `U256 % 0` library panic, and
`u256Underflow` models the `uint` crate's panic when an unsigned
subtraction would go below zero. -/
inductive FieldError where
  | rangeViolation
  | primeMismatch
  | divByZero
  | u256Underflow
deriving DecidableEq

/-- Models `pub struct FieldElement { pub num: U256, pub prime: U256 }`
(src/chapter_1_finite_field.rs lines 6-10); `U256` is modelled as `Nat`. -/
structure FieldElement where
  num : Nat
  prime : Nat
deriving DecidableEq

/-- Models `u128::MAX`, the chunk size of the accumulation loops in
`mul` and `pow`. -/
def U128MAX : Nat := 2 ^ 128 - 1

namespace FieldElement

/-- Models `FieldElement::new` (lines 13-18): panics when `num >= prime`,
otherwise returns `Self { num, prime }`. -/
def new (num prime : Nat) : Except FieldError FieldElement :=
  if num ≥ prime then .error .rangeViolation
  else .ok ⟨num, prime⟩

/-- Models `impl Add for FieldElement` (lines 29-48): panic on prime
mismatch, then one conditional subtraction of the prime from the raw sum. -/
def add (a b : FieldElement) : Except FieldError FieldElement :=
  if a.prime ≠ b.prime then .error .primeMismatch
  else if a.num + b.num ≥ a.prime then .ok ⟨a.num + b.num - a.prime, a.prime⟩
  else .ok ⟨a.num + b.num, a.prime⟩

/-- Models `impl Sub for FieldElement` (lines 50-63), including its exact
operand order: in the `self.num < other.num` branch the source computes
`self.prime - self.num + other.num` and feeds it to `new`.  The inner
check `a.prime < a.num` models the `uint` underflow panic of
`self.prime - self.num` (it can only fire on an element violating the
range invariant). -/
def sub (a b : FieldElement) : Except FieldError FieldElement :=
  if a.prime ≠ b.prime then .error .primeMismatch
  else if a.num < b.num then
    if a.prime < a.num then .error .u256Underflow
    else new (a.prime - a.num + b.num) a.prime
  else new (a.num - b.num) a.prime

/-- Models `for _ in 0..n { ret = step(ret) }`: `n` sequential executions
of the loop body, stopping at the first panic. -/
def iterN (step : FieldElement → Except FieldError FieldElement) :
    Nat → FieldElement → Except FieldError FieldElement
  | 0, ret => .ok ret
  | n + 1, ret => step ret >>= fun r => iterN step n r

/-- Models the chunked `loop { .. }` shared by `mul` (lines 73-88) and
`pow` (lines 113-127): while `counter >= u128::MAX`, run the body
`u128::MAX` times and subtract `u128::MAX` from `counter`; once
`counter < u128::MAX`, run the body `counter` times and break. -/
def chunkLoop (step : FieldElement → Except FieldError FieldElement)
    (counter : Nat) (ret : FieldElement) : Except FieldError FieldElement :=
  if _h : counter < U128MAX then iterN step counter ret
  else iterN step U128MAX ret >>= fun r => chunkLoop step (counter - U128MAX) r
termination_by counter
decreasing_by
  have h1 : 0 < U128MAX := by decide
  omega

/-- Models `impl Mul for FieldElement` (lines 65-91): panic on prime
mismatch, then repeated addition of `self`, `other.num` times, starting
from `FieldElement::new(0, self.prime)`. -/
def mul (a b : FieldElement) : Except FieldError FieldElement :=
  if a.prime ≠ b.prime then .error .primeMismatch
  else new 0 a.prime >>= fun ret => chunkLoop (fun r => add r a) b.num ret

/-- Models `impl Pow<U256> for FieldElement` (lines 109-130):
`ret = new(1, self.prime)` first (panics for prime <= 1), then
`counter = exponent % (self.prime - 1)` (the guard models the `U256 % 0`
library panic, dead after `new` succeeded), then repeated multiplication
by `self`, `counter` times. -/
def pow (a : FieldElement) (exponent : Nat) : Except FieldError FieldElement :=
  new 1 a.prime >>= fun ret =>
    if a.prime - 1 = 0 then .error .divByZero
    else chunkLoop (fun r => mul r a) (exponent % (a.prime - 1)) ret

/-- Models `impl Div for FieldElement` (lines 93-100):
`self * other.pow(p - 2)` with `p = self.prime`.  The guard models the
`uint` underflow panic of the `U256` subtraction `p - 2` when `p < 2`;
there is no zero-divisor check and no direct prime-mismatch check. -/
def div (a b : FieldElement) : Except FieldError FieldElement :=
  if a.prime < 2 then .error .u256Underflow
  else pow b (a.prime - 2) >>= fun pb => mul a pb

/-- Models `impl Pow<i32> for FieldElement` (lines 132-141): a negative
exponent is mapped to `self.prime - 1 - U256::from(-exponent)` by a single
pair of `U256` subtractions (the guard models the `uint` underflow panic
when `-exponent` exceeds `prime - 1`), a non-negative one is used as is;
then the `U256` pow runs. -/
def powInt (a : FieldElement) (exponent : Int) : Except FieldError FieldElement :=
  if exponent < 0 then
    if a.prime - 1 < (-exponent).toNat then .error .u256Underflow
    else pow a (a.prime - 1 - (-exponent).toNat)
  else pow a exponent.toNat

/-- Number of loop-body executions of the chunked loop, mirroring the
recursion structure of `chunkLoop`: a full chunk contributes `u128::MAX`
body runs, the final partial chunk contributes `counter` runs. -/
def chunkCount (counter : Nat) : Nat :=
  if _h : counter < U128MAX then counter
  else U128MAX + chunkCount (counter - U128MAX)
termination_by counter
decreasing_by
  have h1 : 0 < U128MAX := by decide
  omega

/-- Number of `ret = ret + self` additions performed by `mul a b`
(lines 73-88): the loop counter starts at `other.num`. -/
def mulAddCount (_a b : FieldElement) : Nat := chunkCount b.num

/-- Number of `ret = ret * self` multiplications performed by
`pow a e` (lines 113-127): the loop counter starts at
`exponent % (self.prime - 1)`. -/
def powMulCount (a : FieldElement) (e : Nat) : Nat :=
  chunkCount (e % (a.prime - 1))

end FieldElement

namespace FieldElement

/-- Bind on `Except` evaluates its continuation on a success value. -/
theorem ok_bind {α β : Type} (x : α) (f : α → Except FieldError β) :
    (Except.ok x : Except FieldError α) >>= f = f x := rfl

/-- Bind on `Except` propagates an error unchanged. -/
theorem error_bind {α β : Type} (e : FieldError) (f : α → Except FieldError β) :
    (Except.error e : Except FieldError α) >>= f = .error e := rfl

/-- Characterization of a successful `new`. -/
theorem new_ok_iff {n p : Nat} {c : FieldElement} :
    new n p = .ok c ↔ n < p ∧ c = ⟨n, p⟩ := by
  unfold new
  split
  · next hge =>
    constructor
    · intro h; exact Except.noConfusion h
    · rintro ⟨h1, -⟩; omega
  · next hge =>
    constructor
    · intro h; exact ⟨by omega, (Except.ok.inj h).symm⟩
    · rintro ⟨-, rfl⟩; rfl

/-- `new` succeeds on an in-range residue. -/
theorem new_ok_of_lt {n p : Nat} (h : n < p) : new n p = .ok ⟨n, p⟩ :=
  new_ok_iff.mpr ⟨h, rfl⟩

/-- Whatever `new` returns satisfies the range invariant. -/
theorem new_valid {n p : Nat} {c : FieldElement} (h : new n p = .ok c) :
    c.num < c.prime := by
  obtain ⟨h1, rfl⟩ := new_ok_iff.mp h
  exact h1

/-- On valid same-prime operands, `add` returns the mod-p sum. -/
theorem add_ok {a b : FieldElement} (hp : a.prime = b.prime)
    (ha : a.num < a.prime) (hb : b.num < b.prime) :
    add a b = .ok ⟨(a.num + b.num) % a.prime, a.prime⟩ := by
  unfold add
  rw [if_neg (by simp [hp])]
  split
  · next hge =>
    have hx : (a.num + b.num) % a.prime = a.num + b.num - a.prime := by
      rw [Nat.mod_eq_sub_mod hge, Nat.mod_eq_of_lt (by omega)]
    rw [hx]
  · next hlt =>
    rw [Nat.mod_eq_of_lt (by omega)]

/-- On same-prime operands (no validity needed), `add` succeeds and
preserves the prime. -/
theorem add_ex {a b : FieldElement} (hp : a.prime = b.prime) :
    ∃ c, add a b = .ok c ∧ c.prime = a.prime := by
  unfold add
  rw [if_neg (by simp [hp])]
  split
  · exact ⟨_, rfl, rfl⟩
  · exact ⟨_, rfl, rfl⟩

/-- Running the loop body `m + n` times is running it `m` times and then
`n` more times. -/
theorem iterN_append (step : FieldElement → Except FieldError FieldElement)
    (m n : Nat) : ∀ ret,
    iterN step (m + n) ret = iterN step m ret >>= fun r => iterN step n r := by
  induction m with
  | zero =>
    intro ret
    simp [iterN, ok_bind, Nat.zero_add]
  | succ k ih =>
    intro ret
    rw [Nat.succ_add]
    show step ret >>= (fun r => iterN step (k + n) r) = _
    cases hs : step ret with
    | error e => simp [iterN, hs, error_bind]
    | ok r => simp [iterN, hs, ok_bind, ih]

/-- The chunked loop is extensionally `counter` runs of the body. -/
theorem chunkLoop_eq (step : FieldElement → Except FieldError FieldElement)
    (counter : Nat) : ∀ ret,
    chunkLoop step counter ret = iterN step counter ret := by
  induction counter using Nat.strong_induction_on with
  | _ c ih =>
    intro ret
    rw [chunkLoop]
    by_cases h : c < U128MAX
    · rw [dif_pos h]
    · rw [dif_neg h]
      have h1 : 0 < U128MAX := by decide
      have hle : U128MAX ≤ c := by omega
      have hsplit : iterN step c ret
          = iterN step U128MAX ret >>= fun r => iterN step (c - U128MAX) r := by
        rw [← iterN_append, Nat.add_sub_cancel' hle]
      rw [hsplit]
      cases hit : iterN step U128MAX ret with
      | error e => rw [error_bind, error_bind]
      | ok r =>
        rw [ok_bind, ok_bind]
        exact ih (c - U128MAX) (by omega) r

/-- The chunked loop runs its body exactly `counter` times. -/
theorem chunkCount_eq (counter : Nat) : chunkCount counter = counter := by
  induction counter using Nat.strong_induction_on with
  | _ c ih =>
    rw [chunkCount]
    by_cases h : c < U128MAX
    · rw [dif_pos h]
    · rw [dif_neg h]
      have h1 : 0 < U128MAX := by decide
      rw [ih (c - U128MAX) (by omega)]
      omega

/-- Value of `n` repeated additions of a valid element `a` onto a valid
accumulator of the same prime: the mod-p linear combination. -/
theorem iterN_add_ok {a : FieldElement} (ha : a.num < a.prime) (n : Nat) :
    ∀ ret : FieldElement, ret.prime = a.prime → ret.num < ret.prime →
    iterN (fun r => add r a) n ret
      = .ok ⟨(ret.num + n * a.num) % a.prime, a.prime⟩ := by
  have hp : 0 < a.prime := by omega
  induction n with
  | zero =>
    intro ret h1 h2
    rw [iterN]
    cases ret with
    | mk rn rp =>
      simp only at h1 h2
      subst h1
      rw [Nat.zero_mul, Nat.add_zero, Nat.mod_eq_of_lt h2]
  | succ k ih =>
    intro ret h1 h2
    rw [iterN, add_ok h1 (by omega) ha, ok_bind, h1,
      ih ⟨(ret.num + a.num) % a.prime, a.prime⟩ rfl (Nat.mod_lt _ hp)]
    have hm : ((ret.num + a.num) % a.prime + k * a.num) % a.prime
        = (ret.num + a.num + k * a.num) % a.prime :=
      (Nat.mod_modEq (ret.num + a.num) a.prime).add_right (k * a.num)
    have hr : ret.num + a.num + k * a.num = ret.num + (k + 1) * a.num := by ring
    rw [hm, hr]

/-- On a same-prime accumulator, repeated addition always succeeds and
preserves the prime (no validity of the operands needed, since `add`
itself never range-checks). -/
theorem iterN_add_ex {a : FieldElement} (n : Nat) :
    ∀ ret : FieldElement, ret.prime = a.prime →
    ∃ r, iterN (fun x => add x a) n ret = .ok r ∧ r.prime = a.prime := by
  induction n with
  | zero =>
    intro ret h1
    exact ⟨ret, rfl, h1⟩
  | succ k ih =>
    intro ret h1
    obtain ⟨c, hc, hcp⟩ := add_ex (a := ret) (b := a) h1
    obtain ⟨r, hr, hrp⟩ := ih c (by omega)
    rw [iterN, hc, ok_bind, hr]
    exact ⟨r, rfl, hrp⟩

/-- On valid same-prime operands, `mul` returns the mod-p product
(chapter 1 computes it by repeated addition of `self`, `other.num`
times). -/
theorem mul_ok {a b : FieldElement} (hp : a.prime = b.prime)
    (ha : a.num < a.prime) (_hb : b.num < b.prime) :
    mul a b = .ok ⟨a.num * b.num % a.prime, a.prime⟩ := by
  unfold mul
  rw [if_neg (by simp [hp]), new_ok_of_lt (by omega : 0 < a.prime), ok_bind,
    chunkLoop_eq, iterN_add_ok ha b.num ⟨0, a.prime⟩ rfl
      (by show 0 < a.prime; omega),
    Nat.zero_add, Nat.mul_comm]

/-- On same-prime operands with a positive prime, `mul` always succeeds
and preserves the prime. -/
theorem mul_ex {a b : FieldElement} (hp : a.prime = b.prime)
    (h0 : 0 < a.prime) :
    ∃ c, mul a b = .ok c ∧ c.prime = a.prime := by
  unfold mul
  rw [if_neg (by simp [hp]), new_ok_of_lt h0, ok_bind, chunkLoop_eq]
  exact iterN_add_ex b.num ⟨0, a.prime⟩ rfl

/-- A successful `mul` forces equal primes on its operands. -/
theorem mul_ok_primes {a b c : FieldElement} (h : mul a b = .ok c) :
    a.prime = b.prime := by
  by_contra hne
  unfold mul at h
  rw [if_pos hne] at h
  exact Except.noConfusion h

/-- Value of `n` repeated multiplications by a valid element `a` of a
valid same-prime accumulator: the mod-p power combination. -/
theorem iterN_mul_ok {a : FieldElement} (ha : a.num < a.prime) (n : Nat) :
    ∀ ret : FieldElement, ret.prime = a.prime → ret.num < ret.prime →
    iterN (fun r => mul r a) n ret
      = .ok ⟨ret.num * a.num ^ n % a.prime, a.prime⟩ := by
  have hp : 0 < a.prime := by omega
  induction n with
  | zero =>
    intro ret h1 h2
    rw [iterN]
    cases ret with
    | mk rn rp =>
      simp only at h1 h2
      subst h1
      rw [pow_zero, Nat.mul_one, Nat.mod_eq_of_lt h2]
  | succ k ih =>
    intro ret h1 h2
    rw [iterN, mul_ok h1 h2 ha, ok_bind, h1,
      ih ⟨ret.num * a.num % a.prime, a.prime⟩ rfl (Nat.mod_lt _ hp)]
    have hm : (ret.num * a.num % a.prime) * a.num ^ k % a.prime
        = (ret.num * a.num * a.num ^ k) % a.prime :=
      (Nat.mod_modEq (ret.num * a.num) a.prime).mul_right (a.num ^ k)
    have hr : ret.num * a.num * a.num ^ k = ret.num * a.num ^ (k + 1) := by
      ring
    rw [hm, hr]

/-- On a same-prime accumulator and a positive prime, repeated
multiplication always succeeds and preserves the prime. -/
theorem iterN_mul_ex {a : FieldElement} (h0 : 0 < a.prime) (n : Nat) :
    ∀ ret : FieldElement, ret.prime = a.prime →
    ∃ r, iterN (fun x => mul x a) n ret = .ok r ∧ r.prime = a.prime := by
  induction n with
  | zero =>
    intro ret h1
    exact ⟨ret, rfl, h1⟩
  | succ k ih =>
    intro ret h1
    obtain ⟨c, hc, hcp⟩ := mul_ex (a := ret) (b := a) h1 (by omega)
    obtain ⟨r, hr, hrp⟩ := ih c (by omega)
    rw [iterN, hc, ok_bind, hr]
    exact ⟨r, rfl, hrp⟩

/-- Value of `pow` on a valid base over a prime at least 2: the base
raised to the exponent reduced mod `prime - 1`, all mod `prime`. -/
theorem pow_ok {a : FieldElement} (ha : a.num < a.prime)
    (h2 : 2 ≤ a.prime) (e : Nat) :
    pow a e = .ok ⟨a.num ^ (e % (a.prime - 1)) % a.prime, a.prime⟩ := by
  unfold pow
  rw [new_ok_of_lt (by omega : 1 < a.prime), ok_bind,
    if_neg (by omega : ¬a.prime - 1 = 0), chunkLoop_eq,
    iterN_mul_ok ha _ ⟨1, a.prime⟩ rfl (by show 1 < a.prime; omega),
    Nat.one_mul]

/-- On a prime at least 2, `pow` always succeeds and preserves the prime
(no validity of the base needed). -/
theorem pow_ex {a : FieldElement} (h1 : 1 < a.prime) (e : Nat) :
    ∃ c, pow a e = .ok c ∧ c.prime = a.prime := by
  unfold pow
  rw [new_ok_of_lt h1, ok_bind, if_neg (by omega : ¬a.prime - 1 = 0),
    chunkLoop_eq]
  exact iterN_mul_ex (by omega) _ ⟨1, a.prime⟩ rfl

/-- A successful `pow` forces `prime` at least 2 (`new(1, prime)` is the
first statement the source executes). -/
theorem pow_ok_inv {a : FieldElement} {e : Nat} {c : FieldElement}
    (h : pow a e = .ok c) : 1 < a.prime := by
  by_contra hc
  unfold pow at h
  rw [show new 1 a.prime = .error .rangeViolation from by
      unfold new; rw [if_pos (by omega)],
    error_bind] at h
  exact Except.noConfusion h

/-- A successful `pow` preserves the prime of the base. -/
theorem pow_ok_prime {a : FieldElement} {e : Nat} {c : FieldElement}
    (h : pow a e = .ok c) : c.prime = a.prime := by
  obtain ⟨d, hd, hdp⟩ := pow_ex (pow_ok_inv h) e
  rw [h] at hd
  rw [Except.ok.inj hd]
  exact hdp

/-- Fermat's little theorem in residue form, for the divisor correctness
argument: a nonzero residue below a prime `p`, raised to `p - 1`, is `1`
mod `p`. -/
theorem fermat_mod {p b : Nat} (hp : Nat.Prime p) (hb0 : b ≠ 0)
    (hbp : b < p) : b ^ (p - 1) % p = 1 := by
  have hdvd : ¬p ∣ b := by
    intro hd
    exact absurd (Nat.le_of_dvd (Nat.pos_of_ne_zero hb0) hd) (by omega)
  have hco : Nat.Coprime b p :=
    Nat.Coprime.symm ((Nat.Prime.coprime_iff_not_dvd hp).mpr hdvd)
  have h1 := Nat.ModEq.pow_totient hco
  rw [Nat.totient_prime hp] at h1
  calc b ^ (p - 1) % p = 1 % p := h1
    _ = 1 := Nat.mod_eq_of_lt hp.one_lt

/-- `div` at a zero divisor: the source raises `0` to `prime - 2`, which
is `0` for `prime > 2`, and then multiplies, yielding the zero element
with no error anywhere. -/
theorem div_zero_eq {a : FieldElement} (ha : a.num < a.prime)
    (h2 : 2 < a.prime) : div a ⟨0, a.prime⟩ = .ok ⟨0, a.prime⟩ := by
  unfold div
  rw [if_neg (by omega)]
  have hpow : pow ⟨0, a.prime⟩ (a.prime - 2) = .ok ⟨0, a.prime⟩ := by
    rw [pow_ok (by show 0 < a.prime; omega) (by show 2 ≤ a.prime; omega)]
    have hE : (a.prime - 2) % (a.prime - 1) = a.prime - 2 :=
      Nat.mod_eq_of_lt (by omega)
    rw [show ((⟨0, a.prime⟩ : FieldElement).prime - 1) = a.prime - 1 from rfl,
      hE, zero_pow (by omega : a.prime - 2 ≠ 0), Nat.zero_mod]
  rw [hpow, ok_bind,
    mul_ok (a := a) (b := ⟨0, a.prime⟩) rfl ha (by show 0 < a.prime; omega),
    Nat.mul_zero, Nat.zero_mod]

/-- Whatever a successful `add` on valid operands returns is in range. -/
theorem add_valid {a b c : FieldElement} (ha : a.num < a.prime)
    (hb : b.num < b.prime) (h : add a b = .ok c) : c.num < c.prime := by
  unfold add at h
  split at h
  · exact Except.noConfusion h
  · next hne =>
    have hpq : a.prime = b.prime := not_not.mp hne
    split at h
    · next hge =>
      obtain rfl := Except.ok.inj h
      show a.num + b.num - a.prime < a.prime
      omega
    · next hlt =>
      obtain rfl := Except.ok.inj h
      show a.num + b.num < a.prime
      omega

/-- Whatever a successful `sub` returns is in range: both branches go
through `new`, which range-checks. -/
theorem sub_valid {a b c : FieldElement} (h : sub a b = .ok c) :
    c.num < c.prime := by
  unfold sub at h
  split at h
  · exact Except.noConfusion h
  · split at h
    · split at h
      · exact Except.noConfusion h
      · exact new_valid h
    · exact new_valid h

/-- Whatever a successful `mul` on valid operands returns is in range. -/
theorem mul_valid {a b c : FieldElement} (ha : a.num < a.prime)
    (hb : b.num < b.prime) (h : mul a b = .ok c) : c.num < c.prime := by
  have hpq := mul_ok_primes h
  rw [mul_ok hpq ha hb] at h
  obtain rfl := Except.ok.inj h
  show a.num * b.num % a.prime < a.prime
  exact Nat.mod_lt _ (by omega)

/-- Whatever a successful `pow` on a valid base returns is in range. -/
theorem pow_valid {a : FieldElement} {e : Nat} {c : FieldElement}
    (ha : a.num < a.prime) (h : pow a e = .ok c) : c.num < c.prime := by
  have h1 := pow_ok_inv h
  rw [pow_ok ha (by omega) e] at h
  obtain rfl := Except.ok.inj h
  show a.num ^ (e % (a.prime - 1)) % a.prime < a.prime
  exact Nat.mod_lt _ (by omega)

/-- Whatever a successful signed `pow` on a valid base returns is in
range. -/
theorem powInt_valid {a : FieldElement} {e : Int} {c : FieldElement}
    (ha : a.num < a.prime) (h : powInt a e = .ok c) : c.num < c.prime := by
  unfold powInt at h
  split at h
  · split at h
    · exact Except.noConfusion h
    · exact pow_valid ha h
  · exact pow_valid ha h

/-- Whatever a successful `div` on valid operands returns is in range. -/
theorem div_valid {a b c : FieldElement} (ha : a.num < a.prime)
    (hb : b.num < b.prime) (h : div a b = .ok c) : c.num < c.prime := by
  unfold div at h
  split at h
  · exact Except.noConfusion h
  · cases hpow : pow b (a.prime - 2) with
    | error e => rw [hpow, error_bind] at h; exact Except.noConfusion h
    | ok pb =>
      rw [hpow, ok_bind] at h
      exact mul_valid ha (pow_valid hb hpow) h

/-- The `a.num < b.num` branch of `sub` always panics: it computes
`prime - a.num + b.num`, which is at least `prime` whenever
`b.num > a.num`, so the `new` range check fires on every input that
reaches this branch. -/
theorem sub_lt_error {a b : FieldElement} (hpq : a.prime = b.prime)
    (ha : a.num < a.prime) (_hb : b.num < b.prime) (hlt : a.num < b.num) :
    sub a b = .error .rangeViolation := by
  unfold sub
  rw [if_neg (by simp [hpq]), if_pos hlt,
    if_neg (by omega : ¬a.prime < a.num)]
  unfold new
  rw [if_pos (by omega : a.prime - a.num + b.num ≥ a.prime)]

/-- Arithmetic core of the division round trip: multiplying by
`B ^ (prime - 2) mod prime` and then by `B` is the identity on residues,
by Fermat's little theorem. -/
theorem inv_pow_cancel {p A B : Nat} (hp : Nat.Prime p) (hA : A < p)
    (hB : B < p) (hB0 : B ≠ 0) :
    (A * (B ^ (p - 2) % p) % p) * B % p = A := by
  have h2 : 2 ≤ p := hp.two_le
  have hstep : (A * (B ^ (p - 2) % p) % p) * B ≡ A * B ^ (p - 1) [MOD p] := by
    calc (A * (B ^ (p - 2) % p) % p) * B
        ≡ (A * (B ^ (p - 2) % p)) * B [MOD p] :=
          (Nat.mod_modEq (A * (B ^ (p - 2) % p)) p).mul_right B
      _ ≡ (A * B ^ (p - 2)) * B [MOD p] :=
          (((Nat.mod_modEq (B ^ (p - 2)) p).mul_left A).mul_right B)
      _ = A * B ^ (p - 1) := by
          rw [Nat.mul_assoc, ← pow_succ]
          have hs : p - 2 + 1 = p - 1 := by omega
          rw [hs]
  have hferm : B ^ (p - 1) ≡ 1 [MOD p] := by
    show B ^ (p - 1) % p = 1 % p
    rw [fermat_mod hp hB0 hB, Nat.mod_eq_of_lt hp.one_lt]
  have hfin : (A * (B ^ (p - 2) % p) % p) * B ≡ A [MOD p] := by
    calc (A * (B ^ (p - 2) % p) % p) * B
        ≡ A * B ^ (p - 1) [MOD p] := hstep
      _ ≡ A * 1 [MOD p] := Nat.ModEq.mul_left A hferm
      _ = A := Nat.mul_one A
  show (A * (B ^ (p - 2) % p) % p) * B % p = A
  calc (A * (B ^ (p - 2) % p) % p) * B % p = A % p := hfin
    _ = A := Nat.mod_eq_of_lt hA

/-- C1 (corrected).  The spec claims `div(a, b)` requires `b != 0` and
fails with a fatal UndefinedInverse error on a zero divisor.  The code
performs no zero check at all: for any valid `a` over a modulus greater
than 2 it computes `a * 0^(prime-2) = 0` and returns the zero element
without error. -/
theorem c1_div_by_zero_succeeds (a : FieldElement) (ha : a.num < a.prime)
    (h2 : 2 < a.prime) : div a ⟨0, a.prime⟩ = .ok ⟨0, a.prime⟩ :=
  div_zero_eq ha h2

/-- C1 witness: `div (2 mod 5) (0 mod 5)` returns `0 mod 5`. -/
theorem c1_div_by_zero_succeeds_witness :
    div ⟨2, 5⟩ ⟨0, 5⟩ = .ok ⟨0, 5⟩ :=
  c1_div_by_zero_succeeds ⟨2, 5⟩ (by decide) (by decide)

/-- C1 counterexample: at the concrete input `a = 3 mod 7`, `b = 0 mod 7`,
`div` raises no error and returns a field element (the zero element),
contradicting the claimed fatal UndefinedInverse failure. -/
theorem c1_div_by_zero_cex : div ⟨3, 7⟩ ⟨0, 7⟩ = .ok ⟨0, 7⟩ :=
  div_zero_eq (by decide) (by decide)

/-- C2 (code_bug).  The spec's subtraction is `(a.residue - b.residue)
mod modulus`, computing `modulus - b.residue + a.residue` when
`a.residue < b.residue`.  The code swaps the operands and computes
`modulus - a.residue + b.residue`, which is at least `modulus` on every
input reaching that branch, so the `new` range check panics: first the
concrete failing input `1 mod 7` minus `3 mod 7` (the claimed result is
`5 mod 7`), then the general statement that the whole branch is
unreachable without a panic. -/
theorem c2_sub_swapped_operand_bug :
    sub ⟨1, 7⟩ ⟨3, 7⟩ = .error .rangeViolation ∧
    (∀ a b : FieldElement, a.prime = b.prime → a.num < a.prime →
      b.num < b.prime → a.num < b.num →
      sub a b = .error .rangeViolation) :=
  ⟨rfl, fun _ _ hpq ha hb hlt => sub_lt_error hpq ha hb hlt⟩

/-- C2 witness: the always-panicking branch at a second concrete input,
`2 mod 9` minus `5 mod 9`. -/
theorem c2_sub_swapped_operand_bug_witness :
    sub ⟨2, 9⟩ ⟨5, 9⟩ = .error .rangeViolation :=
  c2_sub_swapped_operand_bug.2 ⟨2, 9⟩ ⟨5, 9⟩ rfl (by decide) (by decide)
    (by decide)

/-- C3 (corrected).  The spec claims `0` to a positive exponent yields
`0` while `0^0` and `0` to a negative exponent fail fatally.  The code
never fails on a zero base: it reduces the exponent mod `prime - 1` and
multiplies `1` by the base that many times, so the result is `1` whenever
the reduced exponent is `0` (including `0^0` and any positive multiple of
`prime - 1`) and `0` otherwise; a negative exponent `-n` with
`n ≤ prime - 1` likewise returns a value (`1` for `n = prime - 1`, else
`0`). -/
theorem c3_zero_base_pow (p : Nat) (h2 : 2 ≤ p) :
    (∀ e : Nat, pow ⟨0, p⟩ e
        = .ok (if e % (p - 1) = 0 then ⟨1, p⟩ else ⟨0, p⟩)) ∧
    (∀ n : Nat, 0 < n → n ≤ p - 1 →
      powInt ⟨0, p⟩ (-(n : Int))
        = .ok (if n = p - 1 then ⟨1, p⟩ else ⟨0, p⟩)) := by
  constructor
  · intro e
    rw [pow_ok (a := ⟨0, p⟩) (by show 0 < p; omega) (by show 2 ≤ p; omega) e]
    show Except.ok (⟨0 ^ (e % (p - 1)) % p, p⟩ : FieldElement) = _
    by_cases hE : e % (p - 1) = 0
    · rw [if_pos hE, hE, pow_zero, Nat.mod_eq_of_lt (by omega)]
    · rw [if_neg hE, zero_pow hE, Nat.zero_mod]
  · intro n hn hn2
    unfold powInt
    rw [if_pos (show -(n : Int) < 0 by omega),
      show (-(-(n : Int))).toNat = n from by simp,
      if_neg (show ¬((⟨0, p⟩ : FieldElement).prime - 1 < n) from by
        show ¬(p - 1 < n); omega),
      pow_ok (a := ⟨0, p⟩) (by show 0 < p; omega) (by show 2 ≤ p; omega)]
    show Except.ok (⟨0 ^ ((p - 1 - n) % (p - 1)) % p, p⟩ : FieldElement) = _
    rw [Nat.mod_eq_of_lt (by omega : p - 1 - n < p - 1)]
    by_cases hc : n = p - 1
    · rw [if_pos hc, hc, Nat.sub_self, pow_zero,
        Nat.mod_eq_of_lt (by omega)]
    · rw [if_neg hc, zero_pow (by omega : p - 1 - n ≠ 0), Nat.zero_mod]

/-- C3 witness: over modulus 7, `0^5 = 0` and `0^(-3) = 0`, both without
error. -/
theorem c3_zero_base_pow_witness :
    pow ⟨0, 7⟩ 5 = .ok ⟨0, 7⟩ ∧ powInt ⟨0, 7⟩ (-(3 : Int)) = .ok ⟨0, 7⟩ := by
  have h := c3_zero_base_pow 7 (by decide)
  refine ⟨?_, ?_⟩
  · have h1 := h.1 5
    simpa using h1
  · have h2 := h.2 3 (by decide) (by decide)
    simpa using h2

/-- C3 counterexample: concrete divergences from the claim.  `0^0` over
modulus 7 returns `1` instead of failing, `0^6` (a positive exponent)
returns `1` instead of `0`, and `0^(-2)` returns `0` instead of
failing. -/
theorem c3_zero_base_pow_cex :
    pow ⟨0, 7⟩ 0 = .ok ⟨1, 7⟩ ∧
    pow ⟨0, 7⟩ 6 = .ok ⟨1, 7⟩ ∧
    powInt ⟨0, 7⟩ (-2) = .ok ⟨0, 7⟩ := by
  refine ⟨?_, ?_, ?_⟩
  · rw [pow_ok (a := ⟨0, 7⟩) (by decide) (by decide) 0]; rfl
  · rw [pow_ok (a := ⟨0, 7⟩) (by decide) (by decide) 6]; rfl
  · have h1 : powInt ⟨0, 7⟩ (-2) = pow ⟨0, 7⟩ 4 := rfl
    rw [h1, pow_ok (a := ⟨0, 7⟩) (by decide) (by decide) 4]; rfl

/-- C4 (corrected).  The spec claims `pow(a, -n)` succeeds for a negative
exponent of any magnitude by adding a sufficient multiple of
`modulus - 1`.  The code performs one single subtraction
`prime - 1 - n`: for `0 < n ≤ prime - 1` it returns
`a^((prime-1-n) mod (prime-1))`, but for `n > prime - 1` the unsigned
subtraction underflows and the operation panics instead of succeeding. -/
theorem c4_negative_exponent (a : FieldElement) (n : Nat)
    (ha : a.num < a.prime) (h2 : 2 ≤ a.prime) (hn : 0 < n) :
    (n ≤ a.prime - 1 →
      powInt a (-(n : Int))
        = .ok ⟨a.num ^ ((a.prime - 1 - n) % (a.prime - 1)) % a.prime,
            a.prime⟩) ∧
    (a.prime - 1 < n → powInt a (-(n : Int)) = .error .u256Underflow) := by
  constructor
  · intro hle
    unfold powInt
    rw [if_pos (show -(n : Int) < 0 by omega),
      show (-(-(n : Int))).toNat = n from by simp,
      if_neg (show ¬(a.prime - 1 < n) from by omega),
      pow_ok ha h2]
  · intro hgt
    unfold powInt
    rw [if_pos (show -(n : Int) < 0 by omega),
      show (-(-(n : Int))).toNat = n from by simp,
      if_pos hgt]

/-- C4 witness: `pow (3 mod 7) (-2)` succeeds with `3^4 mod 7 = 4`. -/
theorem c4_negative_exponent_witness : powInt ⟨3, 7⟩ (-2) = .ok ⟨4, 7⟩ := by
  have h := (c4_negative_exponent ⟨3, 7⟩ 2 (by decide) (by decide)
    (by decide)).1 (by decide)
  simpa using h

/-- C4 counterexample: at the concrete input `a = 3 mod 7`,
exponent `-10` (so `n = 10 > modulus - 1 = 6`), the code panics with an
unsigned underflow instead of returning
`3^((modulus-1) - 10 mod (modulus-1)) = 3^2 = 2 mod 7` as claimed. -/
theorem c4_negative_exponent_cex :
    powInt ⟨3, 7⟩ (-10) = .error .u256Underflow := rfl

/-- C5 (confirmed).  Every `FieldElement` returned by `new` or by any of
the operations on valid (range-respecting) operands satisfies
`num < prime`: failing branches panic instead of returning, and every
success path normalizes into range. -/
theorem c5_range_invariant :
    (∀ (n p : Nat) (c : FieldElement), new n p = .ok c → c.num < c.prime) ∧
    (∀ a b c : FieldElement, a.num < a.prime → b.num < b.prime →
      add a b = .ok c → c.num < c.prime) ∧
    (∀ a b c : FieldElement, a.num < a.prime → b.num < b.prime →
      sub a b = .ok c → c.num < c.prime) ∧
    (∀ a b c : FieldElement, a.num < a.prime → b.num < b.prime →
      mul a b = .ok c → c.num < c.prime) ∧
    (∀ (a : FieldElement) (e : Nat) (c : FieldElement), a.num < a.prime →
      pow a e = .ok c → c.num < c.prime) ∧
    (∀ (a : FieldElement) (e : Int) (c : FieldElement), a.num < a.prime →
      powInt a e = .ok c → c.num < c.prime) ∧
    (∀ a b c : FieldElement, a.num < a.prime → b.num < b.prime →
      div a b = .ok c → c.num < c.prime) :=
  ⟨fun _ _ _ h => new_valid h,
   fun _ _ _ ha hb h => add_valid ha hb h,
   fun _ _ _ _ _ h => sub_valid h,
   fun _ _ _ ha hb h => mul_valid ha hb h,
   fun _ _ _ ha h => pow_valid ha h,
   fun _ _ _ ha h => powInt_valid ha h,
   fun _ _ _ ha hb h => div_valid ha hb h⟩

/-- C5 witness: the sum `2 + 1` over modulus 7 is returned in range. -/
theorem c5_range_invariant_witness :
    (⟨3, 7⟩ : FieldElement).num < (⟨3, 7⟩ : FieldElement).prime :=
  c5_range_invariant.2.1 ⟨2, 7⟩ ⟨1, 7⟩ ⟨3, 7⟩ (by decide) (by decide) rfl

/-- C6 (confirmed).  On valid same-modulus operands, `mul` returns the
element with residue `(a.residue * b.residue) mod modulus` (the code
reaches it by repeated addition of `self`, `other.num` times). -/
theorem c6_mul_is_mod_product (a b : FieldElement) (hpq : a.prime = b.prime)
    (ha : a.num < a.prime) (hb : b.num < b.prime) :
    mul a b = .ok ⟨a.num * b.num % a.prime, a.prime⟩ :=
  mul_ok hpq ha hb

/-- C6 witness: `3 * 12 = 10` over modulus 13, the spec's worked
example. -/
theorem c6_mul_is_mod_product_witness :
    mul ⟨3, 13⟩ ⟨12, 13⟩ = .ok ⟨10, 13⟩ := by
  have h := c6_mul_is_mod_product ⟨3, 13⟩ ⟨12, 13⟩ rfl (by decide) (by decide)
  simpa using h

/-- C7 (confirmed).  For valid elements of one prime field with `b`
nonzero, dividing by `b` and then multiplying by `b` is the identity:
`div` multiplies by `b^(prime-2)`, and Fermat's little theorem collapses
`b^(prime-1)` to `1` mod the prime. -/
theorem c7_div_then_mul_roundtrip (a b : FieldElement)
    (hp : Nat.Prime a.prime) (hpq : a.prime = b.prime)
    (ha : a.num < a.prime) (hb : b.num < b.prime) (hb0 : b.num ≠ 0) :
    (div a b >>= fun d => mul d b) = .ok a := by
  have h2 : 2 ≤ a.prime := hp.two_le
  have hb2 : 2 ≤ b.prime := by omega
  have hdiv : div a b
      = .ok ⟨a.num * (b.num ^ (a.prime - 2) % a.prime) % a.prime,
          a.prime⟩ := by
    unfold div
    rw [if_neg (by omega), pow_ok hb hb2, ok_bind,
      mul_ok (a := a)
        (b := ⟨b.num ^ ((a.prime - 2) % (b.prime - 1)) % b.prime, b.prime⟩)
        hpq ha (show _ % b.prime < b.prime from Nat.mod_lt _ (by omega))]
    rw [← hpq, Nat.mod_eq_of_lt (by omega : a.prime - 2 < a.prime - 1)]
  rw [hdiv, ok_bind,
    mul_ok (a := ⟨a.num * (b.num ^ (a.prime - 2) % a.prime) % a.prime,
        a.prime⟩)
      (b := b) hpq (show _ % a.prime < a.prime from Nat.mod_lt _ (by omega))
      hb]
  show Except.ok
      (⟨(a.num * (b.num ^ (a.prime - 2) % a.prime) % a.prime) * b.num
          % a.prime, a.prime⟩ : FieldElement) = _
  rw [inv_pow_cancel hp ha (show b.num < a.prime by omega) hb0]

/-- C7 witness: over modulus 19 (the spec's worked division example),
`(7 / 5) * 5 = 7`. -/
theorem c7_div_then_mul_roundtrip_witness :
    (div ⟨7, 19⟩ ⟨5, 19⟩ >>= fun d => mul d ⟨5, 19⟩) = .ok ⟨7, 19⟩ :=
  c7_div_then_mul_roundtrip ⟨7, 19⟩ ⟨5, 19⟩ (by norm_num) rfl (by decide)
    (by decide) (by decide)

/-- C8 (confirmed).  On valid elements carrying different prime moduli,
all four binary operations fail with the prime-mismatch panic and never
return an element: `add`, `sub` and `mul` check the primes up front, and
`div` reaches the same panic inside its final multiplication (its `pow`
on `b` runs first and succeeds, staying in `b`'s field). -/
theorem c8_mismatch_is_fatal (a b : FieldElement)
    (_ha : a.num < a.prime) (_hb : b.num < b.prime)
    (hpa : Nat.Prime a.prime) (hpb : Nat.Prime b.prime)
    (hne : a.prime ≠ b.prime) :
    add a b = .error .primeMismatch ∧ sub a b = .error .primeMismatch ∧
    mul a b = .error .primeMismatch ∧ div a b = .error .primeMismatch := by
  refine ⟨?_, ?_, ?_, ?_⟩
  · unfold add; rw [if_pos hne]
  · unfold sub; rw [if_pos hne]
  · unfold mul; rw [if_pos hne]
  · unfold div
    rw [if_neg (by have := hpa.two_le; omega)]
    obtain ⟨pb, hpw, hpr⟩ := pow_ex (a := b) hpb.one_lt (a.prime - 2)
    rw [hpw, ok_bind]
    unfold mul
    rw [if_pos (show a.prime ≠ pb.prime by rw [hpr]; exact hne)]

/-- C8 witness: `1 mod 3` against `2 mod 5` fails with the mismatch
panic under all four operations. -/
theorem c8_mismatch_is_fatal_witness :
    add ⟨1, 3⟩ ⟨2, 5⟩ = .error .primeMismatch ∧
    sub ⟨1, 3⟩ ⟨2, 5⟩ = .error .primeMismatch ∧
    mul ⟨1, 3⟩ ⟨2, 5⟩ = .error .primeMismatch ∧
    div ⟨1, 3⟩ ⟨2, 5⟩ = .error .primeMismatch :=
  c8_mismatch_is_fatal ⟨1, 3⟩ ⟨2, 5⟩ (by decide) (by decide) (by norm_num)
    (by norm_num) (by decide)

/-- C9 (corrected).  The spec claims `mul` uses wide-product modular
reduction (not repeated addition) and `pow` uses square-and-multiply with
O(log exponent) multiplications.  The code's loops are linear: `mul`
performs exactly `b.residue` additions and `pow` performs exactly
`exponent mod (prime - 1)` multiplications. -/
theorem c9_loops_are_linear :
    ∀ (a b : FieldElement) (e : Nat),
      mulAddCount a b = b.num ∧ powMulCount a e = e % (a.prime - 1) := by
  intro a b e
  exact ⟨chunkCount_eq _, chunkCount_eq _⟩

/-- C9 counterexample: over modulus 1000003 with operand residue (or
reduced exponent) 1000000, the loops run 1000000 bodies, far above the
square-and-multiply budget of at most `2 * (log2 1000000 + 1) = 40`
multiplications (and a reduction-based `mul` performs no data-dependent
addition loop at all). -/
theorem c9_loops_are_linear_cex :
    mulAddCount ⟨3, 1000003⟩ ⟨1000000, 1000003⟩ = 1000000 ∧
    powMulCount ⟨3, 1000003⟩ 1000000 = 1000000 ∧
    ¬powMulCount ⟨3, 1000003⟩ 1000000 ≤ 2 * 20 := by
  have k1 : mulAddCount ⟨3, 1000003⟩ ⟨1000000, 1000003⟩ = 1000000 := by
    unfold mulAddCount
    rw [chunkCount_eq]
  have k2 : powMulCount ⟨3, 1000003⟩ 1000000 = 1000000 := by
    unfold powMulCount
    rw [chunkCount_eq]
    norm_num
  exact ⟨k1, k2, by rw [k2]; norm_num⟩

/-- C10 (confirmed).  For any valid element of a prime field with
modulus greater than 2, division by the zero element of that field
raises no error and returns the zero element: `0^(prime-2) = 0` because
`prime - 2 ≥ 1`, and `a * 0 = 0`. -/
theorem c10_div_by_zero_yields_zero (a : FieldElement)
    (ha : a.num < a.prime) (_hp : Nat.Prime a.prime) (h2 : 2 < a.prime) :
    div a ⟨0, a.prime⟩ = .ok ⟨0, a.prime⟩ :=
  div_zero_eq ha h2

/-- C10 witness: `div (4 mod 11) (0 mod 11)` returns `0 mod 11` without
error. -/
theorem c10_div_by_zero_yields_zero_witness :
    div ⟨4, 11⟩ ⟨0, 11⟩ = .ok ⟨0, 11⟩ :=
  c10_div_by_zero_yields_zero ⟨4, 11⟩ (by decide) (by norm_num) (by decide)

end FieldElement
